import Mathlib

/-!
Verification development for the quick-note plugin (`src/main.ts`, plus the
earlier revision in `src/unnamed/part_000`).

Strings are modelled as `List Char`.  JavaScript regular expressions used by
the code are modelled directly by recursive functions on character lists,
following ECMAScript semantics (greedy quantifiers with backtracking, the
`\s`, `\d` and `.` character classes, multiline `^`).
-/

/-- ECMAScript `\s` (WhiteSpace or LineTerminator), as used by `trim`,
`trimStart` and the `\s+` in the date-prefix regex. -/
def isJsWhitespace (c : Char) : Bool :=
  c == ' ' || c == '\t' || c == '\n' || c == '\x0B' || c == '\x0C' || c == '\r' ||
  c == '\u00A0' || c == '\u1680' || ('\u2000' <= c && c <= '\u200A') ||
  c == '\u2028' || c == '\u2029' || c == '\u202F' || c == '\u205F' ||
  c == '\u3000' || c == '\uFEFF'

/-- ECMAScript LineTerminator: the characters that `.` does not match and
after which a multiline `^` matches. -/
def isLineTerminator (c : Char) : Bool :=
  c == '\n' || c == '\r' || c == '\u2028' || c == '\u2029'

/-- Strict lexicographic order on character lists: the order JavaScript uses
for `<`/`>` on strings (by code unit; all strings compared by the plugin are
ASCII, where code units and code points agree). -/
def lexLt : List Char → List Char → Bool
  | [], [] => false
  | [], _ :: _ => true
  | _ :: _, [] => false
  | a :: as, b :: bs => if a < b then true else if b < a then false else lexLt as bs

theorem lexLt_irrefl (l : List Char) : lexLt l l = false := by
  induction l with
  | nil => rfl
  | cons a as ih => simp [lexLt, ih]

theorem lexLt_trans :
    ∀ {a b c : List Char}, lexLt a b = true → lexLt b c = true → lexLt a c = true := by
  intro a
  induction a with
  | nil =>
    intro b c hab hbc
    cases b with
    | nil => simp [lexLt] at hab
    | cons y bs =>
      cases c with
      | nil => simp [lexLt] at hbc
      | cons z cs => simp [lexLt]
  | cons x as ih =>
    intro b c hab hbc
    cases b with
    | nil => simp [lexLt] at hab
    | cons y bs =>
      cases c with
      | nil => simp [lexLt] at hbc
      | cons z cs =>
        simp only [lexLt] at hab hbc ⊢
        rcases lt_trichotomy x y with hxy | hxy | hxy
        · rcases lt_trichotomy y z with hyz | hyz | hyz
          · rw [if_pos (lt_trans hxy hyz)]
          · subst hyz; rw [if_pos hxy]
          · rw [if_neg (lt_asymm hyz), if_pos hyz] at hbc; simp at hbc
        · subst hxy
          rw [if_neg (lt_irrefl x)] at hab
          rw [if_neg (lt_irrefl x)] at hab
          rcases lt_trichotomy x z with hxz | hxz | hxz
          · rw [if_pos hxz]
          · subst hxz
            rw [if_neg (lt_irrefl x)] at hbc ⊢
            rw [if_neg (lt_irrefl x)] at hbc ⊢
            exact ih hab hbc
          · rw [if_neg (lt_asymm hxz), if_pos hxz] at hbc; simp at hbc
        · rw [if_neg (lt_asymm hxy), if_pos hxy] at hab; simp at hab

theorem lexLt_antisymm :
    ∀ {a b : List Char}, lexLt a b = false → lexLt b a = false → a = b := by
  intro a
  induction a with
  | nil =>
    intro b hab _
    cases b with
    | nil => rfl
    | cons y bs => simp [lexLt] at hab
  | cons x as ih =>
    intro b hab hba
    cases b with
    | nil => simp [lexLt] at hba
    | cons y bs =>
      simp only [lexLt] at hab hba
      rcases lt_trichotomy x y with hxy | hxy | hxy
      · rw [if_pos hxy] at hab; simp at hab
      · subst hxy
        rw [if_neg (lt_irrefl x)] at hab hba
        rw [if_neg (lt_irrefl x)] at hab hba
        exact congrArg (x :: ·) (ih hab hba)
      · rw [if_pos hxy] at hba; simp at hba

theorem lexLt_asymm {a b : List Char} (h : lexLt a b = true) : lexLt b a = false := by
  cases hba : lexLt b a with
  | false => rfl
  | true =>
    have := lexLt_trans h hba
    rw [lexLt_irrefl] at this
    simp at this

/-- `a ≥ b` and `b ≥ c` imply `a ≥ c`, stated through `lexLt`. -/
theorem lexLt_false_trans {a b c : List Char}
    (hab : lexLt a b = false) (hbc : lexLt b c = false) : lexLt a c = false := by
  cases hac : lexLt a c with
  | false => rfl
  | true =>
    cases hcb : lexLt c b with
    | true =>
      have := lexLt_trans hac hcb
      rw [hab] at this
      simp at this
    | false =>
      have hbceq : b = c := lexLt_antisymm hbc hcb
      subst hbceq
      rw [hab] at hac
      simp at hac

/-- Shape test for the ten-character date prefix `\d{4}-\d{2}-\d{2}`
(ECMAScript `\d` is exactly the ASCII digits). -/
def dateShape : List Char → Bool
  | [y1, y2, y3, y4, h1, m1, m2, h2, d1, d2] =>
      y1.isDigit && y2.isDigit && y3.isDigit && y4.isDigit && h1 == '-' &&
      m1.isDigit && m2.isDigit && h2 == '-' && d1.isDigit && d2.isDigit
  | _ => false

/-- Backtracking for the suffix `\s+(.+)$` of the date-prefix regex in
`getPastNoteTitles` (src/main.ts line 49).  `wrev` is the reversed part of the
maximal whitespace run still assigned to `\s+`; `t` is the candidate for the
group `(.+)`.  The greedy engine first tries the full run, then moves
whitespace characters back into the group one at a time. -/
def titleBT : List Char → List Char → Option (List Char)
  | [], _ => none
  | c :: wrev, t =>
      if !t.isEmpty && t.all (fun x => !isLineTerminator x) then some t
      else titleBT wrev (c :: t)

/-- Model of `fileName.match(/^(\d{4}-\d{2}-\d{2})\s+(.+)$/)`
(src/main.ts lines 49-59): on success returns the captured date and title. -/
def matchDatePattern (s : List Char) : Option (List Char × List Char) :=
  if dateShape (s.take 10) then
    match titleBT ((s.drop 10).takeWhile isJsWhitespace).reverse
        ((s.drop 10).dropWhile isJsWhitespace) with
    | some t => some (s.take 10, t)
    | none => none
  else none

/-- Model of `fileName.replace(/^\d{4}-\d{2}-\d{2}\s+/, '')`
(src/unnamed/part_000 lines 48-55): removes the date prefix and the maximal
whitespace run when the anchored pattern matches, else returns the input. -/
def replaceDatePrefix (s : List Char) : List Char :=
  if dateShape (s.take 10) && !((s.drop 10).takeWhile isJsWhitespace).isEmpty then
    (s.drop 10).dropWhile isJsWhitespace
  else s

/-- The title the set-based implementation adds for a file name, if any
(src/unnamed/part_000 lines 55-59: `titleMatch && titleMatch !== fileName`). -/
def stripTitle (s : List Char) : Option (List Char) :=
  let r := replaceDatePrefix s
  if !r.isEmpty && r ≠ s then some r else none

example : matchDatePattern "2024-01-02 Some note".data = some ("2024-01-02".data, "Some note".data) := by decide
example : matchDatePattern "2024-01-02  ".data = some ("2024-01-02".data, [' ']) := by decide
example : matchDatePattern "2024-01-0x note".data = none := by decide
example : stripTitle "2024-01-02 Some note".data = some ("Some note".data) := by decide
example : stripTitle "2024-01-02  ".data = none := by decide
example : stripTitle "plain".data = none := by decide

/-!
## The vault folder tree

`TFolder.children` is a list of abstract files, each either a `TFile`
(basename and extension) or a nested `TFolder`.  A mutual inductive pair is
used so that all functions on trees are structural.
-/

mutual
inductive Entry where
  | file (basename : List Char) (extension : List Char)
  | folder (children : EntryList)
inductive EntryList where
  | nil
  | cons (e : Entry) (rest : EntryList)
end

/-- The extension checked by both walks (`child.extension === 'md'`). -/
def mdExt : List Char := ['m', 'd']

/-- The `titleDates` map of `getPastNoteTitles` (src/main.ts line 39):
title/date pairs in insertion order, as a JavaScript `Map`. -/
def TitleMap : Type := List (List Char × List Char)

def lookupT : List (List Char × List Char) → List Char → Option (List Char)
  | [], _ => none
  | (k, v) :: rest, t => if k = t then some v else lookupT rest t

/-- `Map.set`: overwrite in place keeping insertion order, else append. -/
def mapSet : List (List Char × List Char) → List Char → List Char →
    List (List Char × List Char)
  | [], k, v => [(k, v)]
  | (k', v') :: rest, k, v =>
      if k' = k then (k', v) :: rest else (k', v') :: mapSet rest k v

/-- Processing of one markdown file by the map-based walk
(src/main.ts lines 53-66): on a regex match, keep the most recent date. -/
def noteStep (m : List (List Char × List Char)) (basename ext : List Char) :
    List (List Char × List Char) :=
  if ext = mdExt then
    match matchDatePattern basename with
    | some (date, title) =>
        match lookupT m title with
        | none => mapSet m title date
        | some d0 => if lexLt d0 date then mapSet m title date else m
    | none => m
  else m

mutual
/-- `extractTitles` of src/main.ts applied to a single child. -/
def walkEntry (m : List (List Char × List Char)) : Entry → List (List Char × List Char)
  | Entry.file b e => noteStep m b e
  | Entry.folder cs => walkChildren m cs
/-- `extractTitles` of src/main.ts: fold over the children in order. -/
def walkChildren (m : List (List Char × List Char)) : EntryList → List (List Char × List Char)
  | EntryList.nil => m
  | EntryList.cons c cs => walkChildren (walkEntry m c) cs
end

/-- Insertion step of a comparator sort by date descending, modelling
`.sort((a, b) => b[1].localeCompare(a[1]))` (src/main.ts line 80);
`localeCompare` on the ten-character ASCII dates stored in the map agrees
with code-unit order. -/
def insertDesc (p : List Char × List Char) :
    List (List Char × List Char) → List (List Char × List Char)
  | [] => [p]
  | q :: rest => if lexLt p.2 q.2 then q :: insertDesc p rest else p :: q :: rest

def sortDesc : List (List Char × List Char) → List (List Char × List Char)
  | [] => []
  | p :: rest => insertDesc p (sortDesc rest)

/-- `getPastNoteTitles` of src/main.ts (lines 37-82).  The argument is the
result of `vault.getAbstractFileByPath` on the configured base folder:
`none` when the path resolves to nothing. -/
def getPastNoteTitles (base : Option Entry) : List (List Char) :=
  match base with
  | none => []
  | some e =>
      let m := match e with
               | Entry.folder cs => walkChildren [] cs
               | _ => []
      (sortDesc m).map Prod.fst

/-!
## The set-based implementation (src/unnamed/part_000)
-/

/-- `Set.add`: insertion-ordered, no duplicates. -/
def setAdd (s : List (List Char)) (x : List Char) : List (List Char) :=
  if x ∈ s then s else s ++ [x]

mutual
def walkEntryS (s : List (List Char)) : Entry → List (List Char)
  | Entry.file b e =>
      if e = mdExt then
        match stripTitle b with
        | some t => setAdd s t
        | none => s
      else s
  | Entry.folder cs => walkChildrenS s cs
def walkChildrenS (s : List (List Char)) : EntryList → List (List Char)
  | EntryList.nil => s
  | EntryList.cons c cs => walkChildrenS (walkEntryS s c) cs
end

/-- Insertion step of a comparator sort ascending, modelling
`.sort((a, b) => a.localeCompare(b))` (src/unnamed/part_000 line 72);
`localeCompare` is modelled by code-unit order. -/
def insertAsc (x : List Char) : List (List Char) → List (List Char)
  | [] => [x]
  | y :: rest => if lexLt y x then y :: insertAsc x rest else x :: y :: rest

def sortAsc : List (List Char) → List (List Char)
  | [] => []
  | x :: rest => insertAsc x (sortAsc rest)

/-- `getPastNoteTitles` of src/unnamed/part_000 (lines 37-73). -/
def getPastNoteTitlesSet (base : Option Entry) : List (List Char) :=
  match base with
  | none => []
  | some e =>
      let s := match e with
               | Entry.folder cs => walkChildrenS [] cs
               | _ => []
      sortAsc s

/-!
## Specification-side view of the walk

`pairsChildren` collects, in walk order, the (date, title) pair of every
markdown file whose basename matches the date-prefix regex, recursing into
all subfolders.
-/

def filePairs (b e : List Char) : List (List Char × List Char) :=
  if e = mdExt then
    match matchDatePattern b with
    | some p => [p]
    | none => []
  else []

mutual
def pairsEntry : Entry → List (List Char × List Char)
  | Entry.file b e => filePairs b e
  | Entry.folder cs => pairsChildren cs
def pairsChildren : EntryList → List (List Char × List Char)
  | EntryList.nil => []
  | EntryList.cons c cs => pairsEntry c ++ pairsChildren cs
end

/-- Take the later of an optional current date and a new date, as the update
condition `!existingDate || date > existingDate` does. -/
def updD : Option (List Char) → List Char → Option (List Char)
  | none, d => some d
  | some d0, d => if lexLt d0 d then some d else some d0

/-- Fold of `updD` over the dates attached to title `t` in a pair list. -/
def bestDate (t : List Char) : List (List Char × List Char) → Option (List Char) → Option (List Char)
  | [], init => init
  | p :: rest, init => bestDate t rest (if p.2 = t then updD init p.1 else init)

theorem lookupT_mapSet (m : List (List Char × List Char)) (k v t : List Char) :
    lookupT (mapSet m k v) t = if k = t then some v else lookupT m t := by
  induction m with
  | nil => simp [mapSet, lookupT]
  | cons p rest ih =>
    obtain ⟨k', v'⟩ := p
    by_cases hk : k' = k
    · subst hk
      simp only [mapSet, if_pos rfl, lookupT]
      by_cases ht : k' = t
      · simp [ht]
      · simp [ht, lookupT]
    · simp only [mapSet, if_neg hk, lookupT]
      by_cases ht : k' = t
      · subst ht
        have : ¬ k = k' := fun h => hk h.symm
        simp [this]
      · simp [ht, ih]

theorem lookup_noteStep (m : List (List Char × List Char)) (b e t : List Char) :
    lookupT (noteStep m b e) t = bestDate t (filePairs b e) (lookupT m t) := by
  unfold noteStep filePairs
  by_cases he : e = mdExt
  · simp only [if_pos he]
    cases hm : matchDatePattern b with
    | none => simp [bestDate]
    | some p =>
      obtain ⟨d, ti⟩ := p
      simp only [bestDate]
      cases hl : lookupT m ti with
      | none =>
        rw [lookupT_mapSet]
        by_cases ht : ti = t
        · subst ht; simp [hl, updD]
        · simp [ht]
      | some d0 =>
        by_cases hlt : lexLt d0 d
        · simp only [if_pos hlt]
          rw [lookupT_mapSet]
          by_cases ht : ti = t
          · subst ht; simp [hl, updD, hlt]
          · simp [ht]
        · simp only [if_neg hlt]
          by_cases ht : ti = t
          · subst ht; simp [hl, updD, hlt]
          · simp [ht]
  · simp [he, bestDate]

theorem bestDate_append (t : List Char) (ps qs : List (List Char × List Char))
    (init : Option (List Char)) :
    bestDate t (ps ++ qs) init = bestDate t qs (bestDate t ps init) := by
  induction ps generalizing init with
  | nil => simp [bestDate]
  | cons p rest ih => simp [bestDate, ih]

mutual
theorem lookup_walkEntry (e : Entry) :
    ∀ m t, lookupT (walkEntry m e) t = bestDate t (pairsEntry e) (lookupT m t) := by
  match e with
  | Entry.file b ex =>
    intro m t
    simp only [walkEntry, pairsEntry]
    exact lookup_noteStep m b ex t
  | Entry.folder cs =>
    intro m t
    simp only [walkEntry, pairsEntry]
    exact lookup_walkChildren cs m t
theorem lookup_walkChildren (cs : EntryList) :
    ∀ m t, lookupT (walkChildren m cs) t = bestDate t (pairsChildren cs) (lookupT m t) := by
  match cs with
  | EntryList.nil => intro m t; simp [walkChildren, pairsChildren, bestDate]
  | EntryList.cons c cs' =>
    intro m t
    simp only [walkChildren, pairsChildren]
    rw [bestDate_append, ← lookup_walkEntry c m t]
    exact lookup_walkChildren cs' (walkEntry m c) t
end

theorem bestDate_none_iff (t : List Char) :
    ∀ (ps : List (List Char × List Char)) (init : Option (List Char)),
    bestDate t ps init = none ↔ (init = none ∧ ∀ d, ¬ (d, t) ∈ ps) := by
  intro ps
  induction ps with
  | nil => intro init; simp [bestDate]
  | cons p rest ih =>
    intro init
    obtain ⟨p1, p2⟩ := p
    by_cases hp : p2 = t
    · subst hp
      simp only [bestDate, if_pos rfl]
      rw [ih]
      constructor
      · rintro ⟨h1, h2⟩
        cases init with
        | none => simp [updD] at h1
        | some d0 => simp [updD] at h1; split at h1 <;> simp at h1
      · rintro ⟨h1, h2⟩
        exact absurd (List.mem_cons_self _ _) (h2 p1)
    · simp only [bestDate]
      have hcond : ((p1, p2) : List Char × List Char).2 = t ↔ False := by simp [hp]
      rw [if_neg (by simpa using hcond.mp)]
      rw [ih]
      constructor
      · rintro ⟨h1, h2⟩
        refine ⟨h1, fun d hd => ?_⟩
        rcases List.mem_cons.mp hd with h | h
        · exact hp (by injection h with _ h2'; exact h2'.symm) |>.elim
        · exact h2 d h
      · rintro ⟨h1, h2⟩
        exact ⟨h1, fun d hd => h2 d (List.mem_cons_of_mem _ hd)⟩

theorem bestDate_some_iff (t : List Char) :
    ∀ (ps : List (List Char × List Char)) (init : Option (List Char)) (d : List Char),
    bestDate t ps init = some d ↔
      ((init = some d ∨ (d, t) ∈ ps) ∧
       (∀ d0, init = some d0 → lexLt d d0 = false) ∧
       (∀ d', (d', t) ∈ ps → lexLt d d' = false)) := by
  intro ps
  induction ps with
  | nil =>
    intro init d
    simp only [bestDate]
    constructor
    · intro h
      refine ⟨Or.inl h, fun d0 h0 => ?_, fun d' hd' => absurd hd' (List.not_mem_nil _)⟩
      rw [h] at h0
      injection h0 with h0
      rw [← h0]
      exact lexLt_irrefl d
    · rintro ⟨h1 | h1, _, _⟩
      · exact h1
      · exact absurd h1 (List.not_mem_nil _)
  | cons p rest ih =>
    intro init d
    obtain ⟨p1, p2⟩ := p
    by_cases hp : p2 = t
    · subst hp
      have hstep : ∀ init0 : Option (List Char),
          bestDate p2 ((p1, p2) :: rest) init0 = bestDate p2 rest (updD init0 p1) := by
        intro init0; simp [bestDate]
      rw [hstep init]
      have hmem : ∀ d' : List Char, (d', p2) ∈ ((p1, p2) :: rest) ↔ (d' = p1 ∨ (d', p2) ∈ rest) := by
        intro d'; simp [Prod.ext_iff]
      cases init with
      | none =>
        simp only [updD]
        rw [ih (some p1) d]
        constructor
        · rintro ⟨h1, h2, h3⟩
          have h2' : lexLt d p1 = false := h2 p1 rfl
          refine ⟨?_, by simp, fun d' hd' => ?_⟩
          · rcases h1 with h1 | h1
            · injection h1 with h1
              exact Or.inr ((hmem d).mpr (Or.inl h1.symm))
            · exact Or.inr ((hmem d).mpr (Or.inr h1))
          · rcases (hmem d').mp hd' with h | h
            · rw [h]; exact h2'
            · exact h3 d' h
        · rintro ⟨h1, _, h3⟩
          have h3p : lexLt d p1 = false := h3 p1 ((hmem p1).mpr (Or.inl rfl))
          refine ⟨?_, ?_, fun d' hd' => h3 d' ((hmem d').mpr (Or.inr hd'))⟩
          · rcases h1 with h1 | h1
            · simp at h1
            · rcases (hmem d).mp h1 with h | h
              · exact Or.inl (by rw [h])
              · exact Or.inr h
          · intro d0 h0
            injection h0 with h0
            rw [← h0]
            exact h3p
      | some d0 =>
        simp only [updD]
        by_cases hlt : lexLt d0 p1 = true
        · rw [if_pos hlt, ih (some p1) d]
          have hnp1d0 : lexLt p1 d0 = false := lexLt_asymm hlt
          constructor
          · rintro ⟨h1, h2, h3⟩
            have h2' : lexLt d p1 = false := h2 p1 rfl
            refine ⟨?_, fun e0 he0 => ?_, fun d' hd' => ?_⟩
            · rcases h1 with h1 | h1
              · injection h1 with h1
                exact Or.inr ((hmem d).mpr (Or.inl h1.symm))
              · exact Or.inr ((hmem d).mpr (Or.inr h1))
            · injection he0 with he0
              rw [← he0]
              exact lexLt_false_trans h2' hnp1d0
            · rcases (hmem d').mp hd' with h | h
              · rw [h]; exact h2'
              · exact h3 d' h
          · rintro ⟨h1, h2, h3⟩
            have h3p : lexLt d p1 = false := h3 p1 ((hmem p1).mpr (Or.inl rfl))
            refine ⟨?_, ?_, fun d' hd' => h3 d' ((hmem d').mpr (Or.inr hd'))⟩
            · rcases h1 with h1 | h1
              · injection h1 with h1
                rw [← h1] at h3p
                rw [h3p] at hlt
                simp at hlt
              · rcases (hmem d).mp h1 with h | h
                · exact Or.inl (by rw [h])
                · exact Or.inr h
            · intro e0 he0
              injection he0 with he0
              rw [← he0]
              exact h3p
        · have hlt' : lexLt d0 p1 = false := by
            cases h : lexLt d0 p1 with
            | false => rfl
            | true => exact absurd h hlt
          rw [if_neg hlt, ih (some d0) d]
          constructor
          · rintro ⟨h1, h2, h3⟩
            have h2' : lexLt d d0 = false := h2 d0 rfl
            refine ⟨?_, fun e0 he0 => ?_, fun d' hd' => ?_⟩
            · rcases h1 with h1 | h1
              · exact Or.inl h1
              · exact Or.inr ((hmem d).mpr (Or.inr h1))
            · injection he0 with he0
              rw [← he0]
              exact h2'
            · rcases (hmem d').mp hd' with h | h
              · rw [h]
                exact lexLt_false_trans h2' hlt'
              · exact h3 d' h
          · rintro ⟨h1, h2, h3⟩
            have h2' : lexLt d d0 = false := h2 d0 rfl
            refine ⟨?_, ?_, fun d' hd' => h3 d' ((hmem d').mpr (Or.inr hd'))⟩
            · rcases h1 with h1 | h1
              · exact Or.inl h1
              · rcases (hmem d).mp h1 with h | h
                · have h3p : lexLt d p1 = false := h3 p1 ((hmem p1).mpr (Or.inl rfl))
                  rw [h] at h2' ⊢
                  exact Or.inl (congrArg some (lexLt_antisymm hlt' h2'))
                · exact Or.inr h
            · intro e0 he0
              injection he0 with he0
              rw [← he0]
              exact h2'
    · simp only [bestDate]
      have hcond : ¬ ((p1, p2) : List Char × List Char).2 = t := by simpa using hp
      rw [if_neg hcond, ih init d]
      have hmem : ∀ d' : List Char, (d', t) ∈ ((p1, p2) :: rest) ↔ (d', t) ∈ rest := by
        intro d'
        simp only [List.mem_cons, Prod.ext_iff]
        constructor
        · rintro (⟨_, h⟩ | h)
          · exact absurd h.symm hp
          · exact h
        · intro h; exact Or.inr h
      constructor
      · rintro ⟨h1, h2, h3⟩
        exact ⟨by rcases h1 with h | h; exact Or.inl h; exact Or.inr ((hmem d).mpr h),
               h2, fun d' hd' => h3 d' ((hmem d').mp hd')⟩
      · rintro ⟨h1, h2, h3⟩
        exact ⟨by rcases h1 with h | h; exact Or.inl h; exact Or.inr ((hmem d).mp h),
               h2, fun d' hd' => h3 d' ((hmem d').mpr hd')⟩

theorem mem_fst_iff_lookup (m : List (List Char × List Char)) (t : List Char) :
    t ∈ m.map Prod.fst ↔ lookupT m t ≠ none := by
  induction m with
  | nil => simp [lookupT]
  | cons p rest ih =>
    obtain ⟨k, v⟩ := p
    by_cases hk : k = t
    · subst hk
      simp [lookupT]
    · have : ¬ t = k := fun h => hk h.symm
      simp [lookupT, hk, this, ih]

theorem mem_fst_mapSet (m : List (List Char × List Char)) (k v x : List Char) :
    x ∈ (mapSet m k v).map Prod.fst ↔ (x ∈ m.map Prod.fst ∨ x = k) := by
  induction m with
  | nil => simp [mapSet]
  | cons p rest ih =>
    obtain ⟨k', v'⟩ := p
    by_cases hk : k' = k
    · subst hk
      have hm : mapSet ((k', v') :: rest) k' v = (k', v) :: rest := by simp [mapSet]
      rw [hm]
      simp only [List.map_cons, List.mem_cons]
      constructor
      · rintro (h | h)
        · exact Or.inr h
        · exact Or.inl (Or.inr h)
      · rintro ((h | h) | h)
        · exact Or.inl h
        · exact Or.inr h
        · exact Or.inl h
    · simp only [mapSet, if_neg hk, List.map_cons, List.mem_cons, ih]
      constructor
      · rintro (h | h | h)
        · exact Or.inl (Or.inl h)
        · exact Or.inl (Or.inr h)
        · exact Or.inr h
      · rintro ((h | h) | h)
        · exact Or.inl h
        · exact Or.inr (Or.inl h)
        · exact Or.inr (Or.inr h)

theorem nodup_fst_mapSet (m : List (List Char × List Char)) (k v : List Char)
    (h : (m.map Prod.fst).Nodup) : ((mapSet m k v).map Prod.fst).Nodup := by
  induction m with
  | nil => simp [mapSet]
  | cons p rest ih =>
    obtain ⟨k', v'⟩ := p
    simp only [List.map_cons, List.nodup_cons] at h
    by_cases hk : k' = k
    · subst hk
      simpa [mapSet, List.nodup_cons] using h
    · simp only [mapSet, if_neg hk, List.map_cons, List.nodup_cons]
      refine ⟨?_, ih h.2⟩
      rw [mem_fst_mapSet]
      rintro (hh | hh)
      · exact h.1 hh
      · exact hk hh

theorem nodup_fst_noteStep (m : List (List Char × List Char)) (b e : List Char)
    (h : (m.map Prod.fst).Nodup) : ((noteStep m b e).map Prod.fst).Nodup := by
  unfold noteStep
  by_cases he : e = mdExt
  · rw [if_pos he]
    cases matchDatePattern b with
    | none => exact h
    | some p =>
      obtain ⟨d, ti⟩ := p
      show (List.map Prod.fst (match lookupT m ti with
        | none => mapSet m ti d
        | some d0 => if lexLt d0 d = true then mapSet m ti d else m)).Nodup
      cases lookupT m ti with
      | none => exact nodup_fst_mapSet m ti d h
      | some d0 =>
        show (List.map Prod.fst (if lexLt d0 d = true then mapSet m ti d else m)).Nodup
        by_cases hl : lexLt d0 d = true
        · rw [if_pos hl]
          exact nodup_fst_mapSet m ti d h
        · rw [if_neg hl]
          exact h
  · rw [if_neg he]
    exact h

mutual
theorem nodup_fst_walkEntry (e : Entry) :
    ∀ m, (List.map Prod.fst m).Nodup → ((walkEntry m e).map Prod.fst).Nodup := by
  match e with
  | Entry.file b ex =>
    intro m h
    exact nodup_fst_noteStep m b ex h
  | Entry.folder cs =>
    intro m h
    exact nodup_fst_walkChildren cs m h
theorem nodup_fst_walkChildren (cs : EntryList) :
    ∀ m, (List.map Prod.fst m).Nodup → ((walkChildren m cs).map Prod.fst).Nodup := by
  match cs with
  | EntryList.nil => intro m h; simpa [walkChildren] using h
  | EntryList.cons c cs' =>
    intro m h
    exact nodup_fst_walkChildren cs' (walkEntry m c) (nodup_fst_walkEntry c m h)
end

theorem insertDesc_perm (p : List Char × List Char) (l : List (List Char × List Char)) :
    (insertDesc p l).Perm (p :: l) := by
  induction l with
  | nil => simp [insertDesc]
  | cons q rest ih =>
    simp only [insertDesc]
    split
    · exact ((ih.cons q).trans (List.Perm.swap p q rest)).symm.symm
    · exact List.Perm.refl _

theorem sortDesc_perm (l : List (List Char × List Char)) : (sortDesc l).Perm l := by
  induction l with
  | nil => simp [sortDesc]
  | cons p rest ih =>
    exact (insertDesc_perm p (sortDesc rest)).trans (ih.cons p)

theorem insertAsc_perm (x : List Char) (l : List (List Char)) :
    (insertAsc x l).Perm (x :: l) := by
  induction l with
  | nil => simp [insertAsc]
  | cons y rest ih =>
    simp only [insertAsc]
    split
    · exact (ih.cons y).trans (List.Perm.swap x y rest)
    · exact List.Perm.refl _

theorem sortAsc_perm (l : List (List Char)) : (sortAsc l).Perm l := by
  induction l with
  | nil => simp [sortAsc]
  | cons x rest ih =>
    exact (insertAsc_perm x (sortAsc rest)).trans (ih.cons x)

/-- C1: for every folder tree under the configured base folder,
`getPastNoteTitles` returns one entry per distinct title (no duplicates,
and a title is listed exactly when some markdown file in the tree, in any
subfolder, has a basename matching the `YYYY-MM-DD <title>` pattern), and
the date kept in the `titleDates` map for each title is the lexicographically
greatest date attached to that title anywhere in the tree. -/
theorem C1_getPastNoteTitles_dedup_most_recent (cs : EntryList) :
    (getPastNoteTitles (some (Entry.folder cs))).Nodup ∧
    (∀ t, t ∈ getPastNoteTitles (some (Entry.folder cs)) ↔
       ∃ d, (d, t) ∈ pairsChildren cs) ∧
    (∀ t d, lookupT (walkChildren [] cs) t = some d ↔
       ((d, t) ∈ pairsChildren cs ∧
        ∀ d', (d', t) ∈ pairsChildren cs → lexLt d d' = false)) := by
  have hget : getPastNoteTitles (some (Entry.folder cs)) =
      (sortDesc (walkChildren [] cs)).map Prod.fst := by
    simp [getPastNoteTitles]
  have hperm : ((sortDesc (walkChildren [] cs)).map Prod.fst).Perm
      ((walkChildren [] cs).map Prod.fst) :=
    (sortDesc_perm (walkChildren [] cs)).map Prod.fst
  have hlk : ∀ t, lookupT (walkChildren [] cs) t = bestDate t (pairsChildren cs) none := by
    intro t
    have := lookup_walkChildren cs [] t
    simpa [lookupT] using this
  refine ⟨?_, ?_, ?_⟩
  · rw [hget]
    exact hperm.nodup_iff.mpr (nodup_fst_walkChildren cs [] (by simp))
  · intro t
    rw [hget, hperm.mem_iff, mem_fst_iff_lookup, hlk t]
    constructor
    · intro h
      by_contra hne
      push_neg at hne
      exact h ((bestDate_none_iff t (pairsChildren cs) none).mpr
        ⟨rfl, fun d hd => hne d hd⟩)
    · rintro ⟨d, hd⟩ h
      exact ((bestDate_none_iff t (pairsChildren cs) none).mp h).2 d hd
  · intro t d
    rw [hlk t, bestDate_some_iff t (pairsChildren cs) none d]
    constructor
    · rintro ⟨h1 | h1, _, h3⟩
      · simp at h1
      · exact ⟨h1, h3⟩
    · rintro ⟨h1, h3⟩
      exact ⟨Or.inr h1, by simp, h3⟩

/-- Helper: membership in the map-based result is exactly having a matching
(date, title) pair in the tree. -/
theorem mem_getPastNoteTitles (cs : EntryList) (t : List Char) :
    t ∈ getPastNoteTitles (some (Entry.folder cs)) ↔ ∃ d, (d, t) ∈ pairsChildren cs := by
  have hget : getPastNoteTitles (some (Entry.folder cs)) =
      (sortDesc (walkChildren [] cs)).map Prod.fst := by
    simp [getPastNoteTitles]
  have hperm : ((sortDesc (walkChildren [] cs)).map Prod.fst).Perm
      ((walkChildren [] cs).map Prod.fst) :=
    (sortDesc_perm (walkChildren [] cs)).map Prod.fst
  have hlk : lookupT (walkChildren [] cs) t = bestDate t (pairsChildren cs) none := by
    have := lookup_walkChildren cs [] t
    simpa [lookupT] using this
  rw [hget, hperm.mem_iff, mem_fst_iff_lookup, hlk]
  constructor
  · intro h
    by_contra hne
    push_neg at hne
    exact h ((bestDate_none_iff t (pairsChildren cs) none).mpr ⟨rfl, fun d hd => hne d hd⟩)
  · rintro ⟨d, hd⟩ h
    exact ((bestDate_none_iff t (pairsChildren cs) none).mp h).2 d hd

/-- The per-file title of the set-based walk. -/
def titlesFile (b e : List Char) : List (List Char) :=
  if e = mdExt then
    match stripTitle b with
    | some t => [t]
    | none => []
  else []

mutual
def titlesEntryS : Entry → List (List Char)
  | Entry.file b e => titlesFile b e
  | Entry.folder cs => titlesChildrenS cs
def titlesChildrenS : EntryList → List (List Char)
  | EntryList.nil => []
  | EntryList.cons c cs => titlesEntryS c ++ titlesChildrenS cs
end

theorem mem_setAdd (s : List (List Char)) (x y : List Char) :
    y ∈ setAdd s x ↔ (y ∈ s ∨ y = x) := by
  unfold setAdd
  by_cases hx : x ∈ s
  · rw [if_pos hx]
    constructor
    · exact Or.inl
    · rintro (h | h)
      · exact h
      · rw [h]; exact hx
  · rw [if_neg hx]
    simp

mutual
theorem mem_walkEntryS (e : Entry) :
    ∀ s y, y ∈ walkEntryS s e ↔ (y ∈ s ∨ y ∈ titlesEntryS e) := by
  match e with
  | Entry.file b ex =>
    intro s y
    show y ∈ (if ex = mdExt then
        match stripTitle b with
        | some t => setAdd s t
        | none => s
      else s) ↔ _
    simp only [titlesEntryS, titlesFile]
    by_cases he : ex = mdExt
    · rw [if_pos he, if_pos he]
      cases stripTitle b with
      | none => simp
      | some t => rw [mem_setAdd]; simp
    · rw [if_neg he, if_neg he]
      simp
  | Entry.folder cs =>
    intro s y
    show y ∈ walkChildrenS s cs ↔ (y ∈ s ∨ y ∈ titlesChildrenS cs)
    exact mem_walkChildrenS cs s y
theorem mem_walkChildrenS (cs : EntryList) :
    ∀ s y, y ∈ walkChildrenS s cs ↔ (y ∈ s ∨ y ∈ titlesChildrenS cs) := by
  match cs with
  | EntryList.nil =>
    intro s y
    simp [walkChildrenS, titlesChildrenS]
  | EntryList.cons c cs' =>
    intro s y
    show y ∈ walkChildrenS (walkEntryS s c) cs' ↔ _
    rw [mem_walkChildrenS cs' (walkEntryS s c) y, mem_walkEntryS c s y]
    simp only [titlesChildrenS, List.mem_append]
    tauto
end

/-- Helper: membership in the set-based result. -/
theorem mem_getPastNoteTitlesSet (cs : EntryList) (t : List Char) :
    t ∈ getPastNoteTitlesSet (some (Entry.folder cs)) ↔ t ∈ titlesChildrenS cs := by
  have hget : getPastNoteTitlesSet (some (Entry.folder cs)) =
      sortAsc (walkChildrenS [] cs) := by
    simp [getPastNoteTitlesSet]
  rw [hget, (sortAsc_perm (walkChildrenS [] cs)).mem_iff, mem_walkChildrenS cs [] t]
  simp

/-- A basename is tame when, if the anchored date-prefix-plus-whitespace
pattern matches it, the remainder after the maximal whitespace run is
nonempty and free of line terminators.  (Untame basenames are exactly where
the two regexes of the two implementations disagree.) -/
def tameName (b : List Char) : Bool :=
  if dateShape (b.take 10) && !((b.drop 10).takeWhile isJsWhitespace).isEmpty then
    !((b.drop 10).dropWhile isJsWhitespace).isEmpty &&
    ((b.drop 10).dropWhile isJsWhitespace).all (fun c => !isLineTerminator c)
  else true

mutual
def tameEntry : Entry → Bool
  | Entry.file b e => if e = mdExt then tameName b else true
  | Entry.folder cs => tameChildren cs
def tameChildren : EntryList → Bool
  | EntryList.nil => true
  | EntryList.cons c cs => tameEntry c && tameChildren cs
end

theorem dateShape_ne_nil {l : List Char} (h : dateShape l = true) : l ≠ [] := by
  intro hl
  rw [hl] at h
  simp [dateShape] at h

/-- On tame basenames the two per-file parses agree. -/
theorem tame_file_agree (b : List Char) (hb : tameName b = true) (t : List Char) :
    (∃ d, (d, t) ∈ (match matchDatePattern b with | some p => [p] | none => [])) ↔
      t ∈ (match stripTitle b with | some t0 => [t0] | none => ([] : List (List Char))) := by
  unfold matchDatePattern stripTitle replaceDatePrefix
  unfold tameName at hb
  by_cases hd : dateShape (b.take 10) = true
  · by_cases hw : ((b.drop 10).takeWhile isJsWhitespace).isEmpty = true
    · have hw' : ((b.drop 10).takeWhile isJsWhitespace) = [] := by
        cases hll : (b.drop 10).takeWhile isJsWhitespace with
        | nil => rfl
        | cons a l => rw [hll] at hw; simp [List.isEmpty] at hw
      rw [if_pos hd, hw']
      simp [titleBT]
    · have hwne : (b.drop 10).takeWhile isJsWhitespace ≠ [] := by
        intro hll
        rw [hll] at hw
        simp [List.isEmpty] at hw
      have hcond : (dateShape (b.take 10) && !((b.drop 10).takeWhile isJsWhitespace).isEmpty) = true := by
        rw [hd]
        cases hll : ((b.drop 10).takeWhile isJsWhitespace).isEmpty with
        | false => rfl
        | true => exact absurd hll hw
      rw [hcond] at hb
      simp only [if_true] at hb
      have htl : ¬ ((b.drop 10).dropWhile isJsWhitespace).isEmpty = true ∧
          ((b.drop 10).dropWhile isJsWhitespace).all (fun c => !isLineTerminator c) = true := by
        constructor
        · intro hh
          rw [hh] at hb
          simp at hb
        · cases hall : ((b.drop 10).dropWhile isJsWhitespace).all (fun c => !isLineTerminator c) with
          | true => rfl
          | false => rw [hall] at hb; simp at hb
      obtain ⟨htl1, htl2⟩ := htl
      obtain ⟨x, xs, hxx⟩ := List.exists_cons_of_ne_nil
        (fun hnil => hwne (by
          have := congrArg List.reverse hnil
          simpa using this) : ((b.drop 10).takeWhile isJsWhitespace).reverse ≠ [])
      rw [if_pos hd, hxx]
      simp only [titleBT]
      have hbt : (!((b.drop 10).dropWhile isJsWhitespace).isEmpty &&
          ((b.drop 10).dropWhile isJsWhitespace).all (fun c => !isLineTerminator c)) = true := by
        rw [htl2]
        cases hll : ((b.drop 10).dropWhile isJsWhitespace).isEmpty with
        | false => rfl
        | true => exact absurd hll htl1
      rw [hbt]
      simp only [if_true]
      rw [if_pos hcond]
      have hne_b : (b.drop 10).dropWhile isJsWhitespace ≠ b := by
        intro heq
        have hsplit : b = b.take 10 ++ b.drop 10 := (List.take_append_drop 10 b).symm
        have hsplit2 : b.drop 10 = (b.drop 10).takeWhile isJsWhitespace ++
            (b.drop 10).dropWhile isJsWhitespace :=
          (List.takeWhile_append_dropWhile isJsWhitespace (b.drop 10)).symm
        have hlen : b.length = (b.take 10).length +
            (((b.drop 10).takeWhile isJsWhitespace).length +
             ((b.drop 10).dropWhile isJsWhitespace).length) := by
          conv_lhs => rw [hsplit]
          rw [List.length_append]
          congr 1
          conv_lhs => rw [hsplit2]
          rw [List.length_append]
        have h10 : 1 ≤ (b.take 10).length :=
          List.length_pos.mpr (dateShape_ne_nil hd)
        have hw1 : 1 ≤ ((b.drop 10).takeWhile isJsWhitespace).length :=
          List.length_pos.mpr hwne
        have : ((b.drop 10).dropWhile isJsWhitespace).length = b.length := by rw [heq]
        omega
      have hcond2 : (!((b.drop 10).dropWhile isJsWhitespace).isEmpty &&
          decide ((b.drop 10).dropWhile isJsWhitespace ≠ b)) = true := by
        rw [decide_eq_true hne_b]
        cases hll : ((b.drop 10).dropWhile isJsWhitespace).isEmpty with
        | false => rfl
        | true => exact absurd hll htl1
      rw [if_pos hcond2]
      simp [Prod.ext_iff, eq_comm]
  · have hd' : dateShape (b.take 10) = false := by
      cases hh : dateShape (b.take 10) with
      | false => rfl
      | true => exact absurd hh hd
    rw [if_neg hd]
    have hcond : (dateShape (b.take 10) && !((b.drop 10).takeWhile isJsWhitespace).isEmpty) = false := by
      rw [hd']; rfl
    simp only [hcond, Bool.false_eq_true, if_false]
    have : (!b.isEmpty && decide (b ≠ b)) = false := by simp
    rw [this]
    simp

mutual
theorem tame_pairs_titles_entry (e : Entry) :
    tameEntry e = true → ∀ t,
      (∃ d, (d, t) ∈ pairsEntry e) ↔ t ∈ titlesEntryS e := by
  match e with
  | Entry.file b ex =>
    intro h t
    show (∃ d, (d, t) ∈ filePairs b ex) ↔ t ∈ titlesFile b ex
    unfold filePairs titlesFile
    by_cases he : ex = mdExt
    · rw [if_pos he, if_pos he]
      have hb : tameName b = true := by
        have : tameEntry (Entry.file b ex) = (if ex = mdExt then tameName b else true) := rfl
        rw [this, if_pos he] at h
        exact h
      exact tame_file_agree b hb t
    · rw [if_neg he, if_neg he]
      simp
  | Entry.folder cs =>
    intro h t
    show (∃ d, (d, t) ∈ pairsChildren cs) ↔ t ∈ titlesChildrenS cs
    exact tame_pairs_titles_children cs (by
      have : tameEntry (Entry.folder cs) = tameChildren cs := rfl
      rw [this] at h
      exact h) t
theorem tame_pairs_titles_children (cs : EntryList) :
    tameChildren cs = true → ∀ t,
      (∃ d, (d, t) ∈ pairsChildren cs) ↔ t ∈ titlesChildrenS cs := by
  match cs with
  | EntryList.nil =>
    intro _ t
    simp [pairsChildren, titlesChildrenS]
  | EntryList.cons c cs' =>
    intro h t
    have h' : tameEntry c = true ∧ tameChildren cs' = true := by
      have : tameChildren (EntryList.cons c cs') = (tameEntry c && tameChildren cs') := rfl
      rw [this] at h
      exact Bool.and_eq_true_iff.mp h
    show (∃ d, (d, t) ∈ pairsEntry c ++ pairsChildren cs') ↔
      t ∈ titlesEntryS c ++ titlesChildrenS cs'
    simp only [List.mem_append, exists_or]
    rw [← tame_pairs_titles_entry c h'.1 t, ← tame_pairs_titles_children cs' h'.2 t]
end

/-- A one-file tree on which the two implementations disagree: the basename
is the date followed by two spaces.  The backtracking regex of src/main.ts
matches it with title `" "`, while the prefix-stripping code of
src/unnamed/part_000 strips the whole remainder and keeps nothing. -/
def cexTree : Entry :=
  Entry.folder (EntryList.cons (Entry.file ("2024-01-02  ".data) mdExt) EntryList.nil)

/-- C4 counterexample: on `cexTree` the map-based implementation returns the
title `" "` while the set-based one returns nothing, so the two do not always
produce the same set of titles. -/
theorem C4_getPastNoteTitles_equiv_cex :
    ¬ (∀ t, t ∈ getPastNoteTitles (some cexTree) ↔
        t ∈ getPastNoteTitlesSet (some cexTree)) := by
  intro h
  have h1 : [' '] ∈ getPastNoteTitles (some cexTree) := by decide
  have h2 : [' '] ∉ getPastNoteTitlesSet (some cexTree) := by decide
  exact h2 ((h [' ']).mp h1)

/-- C4 (amended): for every folder tree in which each markdown basename that
matches the date-plus-whitespace prefix keeps a nonempty, line-terminator-free
remainder after the maximal whitespace run, the two implementations of
`getPastNoteTitles` return the same set of titles. -/
theorem C4_getPastNoteTitles_equiv_tame (e : Entry) (h : tameEntry e = true) :
    ∀ t, t ∈ getPastNoteTitles (some e) ↔ t ∈ getPastNoteTitlesSet (some e) := by
  cases e with
  | file b ex =>
    intro t
    simp [getPastNoteTitles, getPastNoteTitlesSet, sortDesc, sortAsc]
  | folder cs =>
    intro t
    rw [mem_getPastNoteTitles cs t, mem_getPastNoteTitlesSet cs t]
    exact tame_pairs_titles_children cs (by
      have hh : tameEntry (Entry.folder cs) = tameChildren cs := rfl
      rw [hh] at h
      exact h) t

/-- A small tame tree: the same title under two dates, one in a subfolder. -/
def tameTree : Entry :=
  Entry.folder (EntryList.cons (Entry.file ("2024-01-02 Note".data) mdExt)
    (EntryList.cons (Entry.folder (EntryList.cons
      (Entry.file ("2024-02-03 Note".data) mdExt) EntryList.nil))
      EntryList.nil))

theorem C4_getPastNoteTitles_equiv_tame_witness :
    tameEntry tameTree = true ∧
    (∀ t, t ∈ getPastNoteTitles (some tameTree) ↔
       t ∈ getPastNoteTitlesSet (some tameTree)) :=
  ⟨by decide, C4_getPastNoteTitles_equiv_tame tameTree (by decide)⟩

/-- C10: when the configured base folder resolves to nothing, or to a file
rather than a folder, both implementations of `getPastNoteTitles` return the
empty list. -/
theorem C10_missing_base_returns_empty :
    getPastNoteTitles none = [] ∧ getPastNoteTitlesSet none = [] ∧
    (∀ b e, getPastNoteTitles (some (Entry.file b e)) = [] ∧
            getPastNoteTitlesSet (some (Entry.file b e)) = []) := by
  refine ⟨rfl, rfl, fun b e => ⟨?_, ?_⟩⟩ <;>
    simp [getPastNoteTitles, getPastNoteTitlesSet, sortDesc, sortAsc]

def oneNoteChildren : EntryList :=
  EntryList.cons (Entry.file ("2024-01-02 A".data) mdExt)
    (EntryList.cons (Entry.file ("2024-03-04 A".data) mdExt) EntryList.nil)

theorem C1_getPastNoteTitles_dedup_most_recent_witness :
    (getPastNoteTitles (some (Entry.folder oneNoteChildren))).Nodup ∧
    (∀ t, t ∈ getPastNoteTitles (some (Entry.folder oneNoteChildren)) ↔
       ∃ d, (d, t) ∈ pairsChildren oneNoteChildren) ∧
    (∀ t d, lookupT (walkChildren [] oneNoteChildren) t = some d ↔
       ((d, t) ∈ pairsChildren oneNoteChildren ∧
        ∀ d', (d', t) ∈ pairsChildren oneNoteChildren → lexLt d d' = false)) :=
  C1_getPastNoteTitles_dedup_most_recent oneNoteChildren

/-!
## Frontmatter handling (src/main.ts lines 167-199)
-/

def trimStartJs (s : List Char) : List Char := s.dropWhile isJsWhitespace

def dashes3 : List Char := ['-', '-', '-']

def fmOpen : List Char := ['-', '-', '-', '\n']

def fmSep : List Char := ['\n', '-', '-', '-', '\n']

/-- The lazy group of `/^---\n([\s\S]*?)\n---\n([\s\S]*)$/`: split the text
after the opening `---\n` at the first occurrence of `\n---\n`. -/
def findSep : List Char → Option (List Char × List Char)
  | [] => none
  | c :: rest =>
      if fmSep.isPrefixOf (c :: rest) then some ([], rest.drop 4)
      else match findSep rest with
           | some (fm, body) => some (c :: fm, body)
           | none => none

/-- Model of `content.match(/^---\n([\s\S]*?)\n---\n([\s\S]*)$/)`
(src/main.ts line 173): the captured frontmatter interior and body. -/
def fmMatch (content : List Char) : Option (List Char × List Char) :=
  if fmOpen.isPrefixOf content then findSep (content.drop 4) else none

/-- Positions where a multiline `^` matches: the segments of the text between
individual line terminator characters. -/
def splitLines : List Char → List (List Char)
  | [] => [[]]
  | c :: rest =>
      match isLineTerminator c, splitLines rest with
      | true, r => [] :: r
      | false, [] => [[c]]
      | false, l :: ls => (c :: l) :: ls

def dateKey : List Char := ['d', 'a', 't', 'e', ':']

def titleKey : List Char := ['t', 'i', 't', 'l', 'e', ':']

/-- Model of `/^date:/m.test(fm)` and `/^title:/m.test(fm)`
(src/main.ts lines 179-180). -/
def hasKeyLine (k s : List Char) : Bool := (splitLines s).any (fun l => k.isPrefixOf l)

/-- `"date: ${date}\n"`, `"title: ${title}\n"`. -/
def keyLine (k v : List Char) : List Char := k ++ [' '] ++ v ++ ['\n']

/-- `"---\ntitle: ${title}\ndate: ${date}\n---\n\n"` (src/main.ts line 197). -/
def newFrontmatter (title date : List Char) : List Char :=
  fmOpen ++ keyLine titleKey title ++ keyLine dateKey date ++ dashes3 ++ ['\n', '\n']

/-- `addFrontmatter` of src/main.ts (lines 167-199). -/
def addFrontmatter (content title date : List Char) : List Char :=
  let hasFm := dashes3.isPrefixOf (trimStartJs content)
  match (if hasFm then fmMatch content else none) with
  | some (fm, body) =>
      let nf1 := if hasKeyLine dateKey fm then fm else keyLine dateKey date ++ fm
      let nf2 := if hasKeyLine titleKey fm then nf1 else keyLine titleKey title ++ nf1
      fmOpen ++ nf2 ++ fmSep ++ body
  | none => newFrontmatter title date ++ content

example : addFrontmatter [] "T".data "2024-01-05".data =
    "---\ntitle: T\ndate: 2024-01-05\n---\n\n".data := by decide
example : addFrontmatter "---\nfoo: 1\n---\nbody".data "T".data "D".data =
    "---\ntitle: T\ndate: D\nfoo: 1\n---\nbody".data := by decide
example : addFrontmatter "---\ndate: X\ntitle: Y\n---\nbody".data "T".data "D".data =
    "---\ndate: X\ntitle: Y\n---\nbody".data := by decide
example : addFrontmatter "---\ntitle: Y\n---\nbody".data "T".data "D".data =
    "---\ndate: D\ntitle: Y\n---\nbody".data := by decide
example : addFrontmatter "x---\nfoo: 1\n---\nbody".data "T".data "D".data =
    ("---\ntitle: T\ndate: D\n---\n\n".data ++ "x---\nfoo: 1\n---\nbody".data) := by decide

theorem isPrefixOf_exists :
    ∀ (p s : List Char), p.isPrefixOf s = true → ∃ t, s = p ++ t := by
  intro p
  induction p with
  | nil => intro s _; exact ⟨s, rfl⟩
  | cons c p' ih =>
    intro s h
    cases s with
    | nil => simp [List.isPrefixOf] at h
    | cons d s' =>
      simp only [List.isPrefixOf, Bool.and_eq_true, beq_iff_eq] at h
      obtain ⟨t, ht⟩ := ih s' h.2
      exact ⟨t, by rw [h.1, ht]; rfl⟩

theorem isPrefixOf_self_append (p rest : List Char) : p.isPrefixOf (p ++ rest) = true := by
  induction p with
  | nil => simp [List.isPrefixOf]
  | cons c cs ih => simp [List.isPrefixOf, ih]

theorem hasFm_of_fmMatch {content fm body : List Char}
    (h : fmMatch content = some (fm, body)) :
    dashes3.isPrefixOf (trimStartJs content) = true := by
  unfold fmMatch at h
  by_cases hp : fmOpen.isPrefixOf content = true
  · obtain ⟨t, ht⟩ := isPrefixOf_exists fmOpen content hp
    subst ht
    show dashes3.isPrefixOf (trimStartJs ('-' :: '-' :: '-' :: '\n' :: t)) = true
    have : trimStartJs ('-' :: '-' :: '-' :: '\n' :: t) = '-' :: '-' :: '-' :: '\n' :: t := rfl
    rw [this]
    simp [dashes3, List.isPrefixOf]
  · rw [if_neg hp] at h
    exact absurd h (by simp)

theorem addFrontmatter_eq_some {content fm body : List Char} (title date : List Char)
    (h : fmMatch content = some (fm, body)) :
    addFrontmatter content title date =
      fmOpen ++ ((if hasKeyLine titleKey fm then [] else keyLine titleKey title) ++
        ((if hasKeyLine dateKey fm then [] else keyLine dateKey date) ++ fm)) ++
        fmSep ++ body := by
  simp only [addFrontmatter]
  rw [if_pos (hasFm_of_fmMatch h), h]
  by_cases hd : hasKeyLine dateKey fm = true
  · by_cases ht : hasKeyLine titleKey fm = true
    · simp [hd, ht]
    · simp [hd, ht]
  · by_cases ht : hasKeyLine titleKey fm = true
    · simp [hd, ht]
    · simp [hd, ht]

theorem addFrontmatter_eq_none {content : List Char} (title date : List Char)
    (h : fmMatch content = none) :
    addFrontmatter content title date = newFrontmatter title date ++ content := by
  simp only [addFrontmatter]
  by_cases hfm : dashes3.isPrefixOf (trimStartJs content) = true
  · rw [if_pos hfm, h]
  · rw [if_neg hfm]

theorem splitLines_ne_nil (s : List Char) : splitLines s ≠ [] := by
  cases s with
  | nil => simp [splitLines]
  | cons c rest =>
    show (match isLineTerminator c, splitLines rest with
      | true, r => [] :: r
      | false, [] => [[c]]
      | false, l :: ls => (c :: l) :: ls) ≠ []
    cases isLineTerminator c <;> cases splitLines rest <;> simp

theorem splitLines_append_noTerm :
    ∀ (xs ys : List Char), xs.all (fun c => !isLineTerminator c) = true →
      ∃ h t, splitLines ys = h :: t ∧ splitLines (xs ++ ys) = (xs ++ h) :: t := by
  intro xs
  induction xs with
  | nil =>
    intro ys _
    cases hys : splitLines ys with
    | nil => exact absurd hys (splitLines_ne_nil ys)
    | cons h t => exact ⟨h, t, rfl, by simpa using hys⟩
  | cons c xs' ih =>
    intro ys hall
    simp only [List.all_cons, Bool.and_eq_true] at hall
    obtain ⟨h, t, hys, hxs⟩ := ih ys hall.2
    refine ⟨h, t, hys, ?_⟩
    have hterm : isLineTerminator c = false := by
      cases hc : isLineTerminator c with
      | false => rfl
      | true => rw [hc] at hall; simp at hall
    show (match isLineTerminator c, splitLines (xs' ++ ys) with
      | true, r => [] :: r
      | false, [] => [[c]]
      | false, l :: ls => (c :: l) :: ls) = ((c :: xs') ++ h) :: t
    rw [hterm, hxs]
    rfl

theorem hasKeyLine_self (k rest : List Char)
    (hk : k.all (fun c => !isLineTerminator c) = true) :
    hasKeyLine k (k ++ rest) = true := by
  obtain ⟨h, t, _, hsplit⟩ := splitLines_append_noTerm k rest hk
  unfold hasKeyLine
  rw [hsplit]
  simp only [List.any_cons, Bool.or_eq_true]
  exact Or.inl (isPrefixOf_self_append k h)

theorem splitLines_newline_append :
    ∀ (pre s : List Char), ∃ ls, ls ≠ [] ∧
      splitLines (pre ++ '\n' :: s) = ls ++ splitLines s := by
  intro pre
  induction pre with
  | nil =>
    intro s
    refine ⟨[[]], by simp, ?_⟩
    show (match isLineTerminator '\n', splitLines s with
      | true, r => [] :: r
      | false, [] => [['\n']]
      | false, l :: ls => ('\n' :: l) :: ls) = [[]] ++ splitLines s
    rw [show isLineTerminator '\n' = true from rfl]
    simp
  | cons c pre' ih =>
    intro s
    obtain ⟨ls, hne, hls⟩ := ih s
    by_cases hc : isLineTerminator c = true
    · refine ⟨[] :: ls, by simp, ?_⟩
      show (match isLineTerminator c, splitLines (pre' ++ '\n' :: s) with
        | true, r => [] :: r
        | false, [] => [[c]]
        | false, l :: ls => (c :: l) :: ls) = ([] :: ls) ++ splitLines s
      rw [hc, hls]
      simp
    · have hc' : isLineTerminator c = false := by
        cases hh : isLineTerminator c with
        | false => rfl
        | true => exact absurd hh hc
      obtain ⟨l0, ls', hls'⟩ := List.exists_cons_of_ne_nil hne
      refine ⟨(c :: l0) :: ls', by simp, ?_⟩
      show (match isLineTerminator c, splitLines (pre' ++ '\n' :: s) with
        | true, r => [] :: r
        | false, [] => [[c]]
        | false, l :: ls => (c :: l) :: ls) = ((c :: l0) :: ls') ++ splitLines s
      rw [hc', hls, hls']
      simp

theorem hasKeyLine_newline_append (k pre s : List Char)
    (h : hasKeyLine k s = true) : hasKeyLine k (pre ++ '\n' :: s) = true := by
  obtain ⟨ls, _, hls⟩ := splitLines_newline_append pre s
  unfold hasKeyLine at h ⊢
  rw [hls, List.any_append, h]
  simp

theorem keyLine_append (k v s : List Char) :
    keyLine k v ++ s = (k ++ ' ' :: v) ++ '\n' :: s := by
  simp [keyLine, List.append_assoc]

theorem addFrontmatter_shape (content title date : List Char) :
    ∃ fm body, addFrontmatter content title date = fmOpen ++ fm ++ fmSep ++ body ∧
      hasKeyLine titleKey fm = true ∧ hasKeyLine dateKey fm = true := by
  have htk : titleKey.all (fun c => !isLineTerminator c) = true := by decide
  have hdk : dateKey.all (fun c => !isLineTerminator c) = true := by decide
  cases hm : fmMatch content with
  | none =>
    refine ⟨keyLine titleKey title ++ (dateKey ++ ' ' :: date), '\n' :: content, ?_, ?_, ?_⟩
    · rw [addFrontmatter_eq_none title date hm]
      simp [newFrontmatter, keyLine, fmOpen, fmSep, dashes3, List.append_assoc]
    · rw [keyLine_append]
      have hsh : (titleKey ++ ' ' :: title) ++ '\n' :: (dateKey ++ ' ' :: date) =
          titleKey ++ (' ' :: title ++ '\n' :: (dateKey ++ ' ' :: date)) := by
        simp [List.append_assoc]
      rw [hsh]
      exact hasKeyLine_self titleKey _ htk
    · rw [keyLine_append]
      exact hasKeyLine_newline_append dateKey _ _ (hasKeyLine_self dateKey (' ' :: date) hdk)
  | some p =>
    obtain ⟨fm, body⟩ := p
    refine ⟨(if hasKeyLine titleKey fm then [] else keyLine titleKey title) ++
      ((if hasKeyLine dateKey fm then [] else keyLine dateKey date) ++ fm), body,
      addFrontmatter_eq_some title date hm, ?_, ?_⟩
    · by_cases ht : hasKeyLine titleKey fm = true
      · rw [if_pos ht]
        simp only [List.nil_append]
        by_cases hd : hasKeyLine dateKey fm = true
        · rw [if_pos hd]
          simp only [List.nil_append]
          exact ht
        · rw [if_neg hd, keyLine_append]
          exact hasKeyLine_newline_append titleKey _ fm ht
      · rw [if_neg ht, keyLine_append]
        have hsh : (titleKey ++ ' ' :: title) ++
            '\n' :: ((if hasKeyLine dateKey fm then [] else keyLine dateKey date) ++ fm) =
            titleKey ++ (' ' :: title ++
              '\n' :: ((if hasKeyLine dateKey fm then [] else keyLine dateKey date) ++ fm)) := by
          simp [List.append_assoc]
        rw [hsh]
        exact hasKeyLine_self titleKey _ htk
    · by_cases hd : hasKeyLine dateKey fm = true
      · rw [if_pos hd]
        simp only [List.nil_append]
        by_cases ht : hasKeyLine titleKey fm = true
        · rw [if_pos ht]
          simp only [List.nil_append]
          exact hd
        · rw [if_neg ht, keyLine_append]
          exact hasKeyLine_newline_append dateKey _ fm hd
      · rw [if_neg hd]
        have hinner : hasKeyLine dateKey (keyLine dateKey date ++ fm) = true := by
          rw [keyLine_append]
          have hsh : (dateKey ++ ' ' :: date) ++ '\n' :: fm =
              dateKey ++ (' ' :: date ++ '\n' :: fm) := by
            simp [List.append_assoc]
          rw [hsh]
          exact hasKeyLine_self dateKey _ hdk
        by_cases ht : hasKeyLine titleKey fm = true
        · rw [if_pos ht]
          simp only [List.nil_append]
          exact hinner
        · rw [if_neg ht, keyLine_append]
          exact hasKeyLine_newline_append dateKey _ _ hinner

/-- C6: for every content, title and date, the result of `addFrontmatter`
begins with a `---`-delimited frontmatter block containing both a line
starting with `title:` and a line starting with `date:`. -/
theorem C6_addFrontmatter_always_has_block (content title date : List Char) :
    ∃ fm body, addFrontmatter content title date = fmOpen ++ fm ++ fmSep ++ body ∧
      hasKeyLine titleKey fm = true ∧ hasKeyLine dateKey fm = true :=
  addFrontmatter_shape content title date

/-- C2: on content whose frontmatter block parses, `addFrontmatter` prepends
a `title:` line exactly when no line of the existing frontmatter starts with
`title:`, and a `date:` line exactly when no line starts with `date:`;
on content with no parsed frontmatter block it prepends a fresh block with
both fields. -/
theorem C2_addFrontmatter_merge (content title date : List Char) :
    (∀ fm body, fmMatch content = some (fm, body) →
       addFrontmatter content title date =
         fmOpen ++ ((if hasKeyLine titleKey fm then [] else keyLine titleKey title) ++
           ((if hasKeyLine dateKey fm then [] else keyLine dateKey date) ++ fm)) ++
           fmSep ++ body) ∧
    (fmMatch content = none →
       addFrontmatter content title date = newFrontmatter title date ++ content) :=
  ⟨fun _ _ h => addFrontmatter_eq_some title date h,
   fun h => addFrontmatter_eq_none title date h⟩

theorem C2_addFrontmatter_merge_witness :
    (addFrontmatter "---\ndate: X\n---\nB".data "T".data "D".data =
       fmOpen ++ ((if hasKeyLine titleKey "date: X".data then []
            else keyLine titleKey "T".data) ++
         ((if hasKeyLine dateKey "date: X".data then []
            else keyLine dateKey "D".data) ++ "date: X".data)) ++
         fmSep ++ "B".data) ∧
    (addFrontmatter "plain".data "T".data "D".data =
       newFrontmatter "T".data "D".data ++ "plain".data) :=
  ⟨(C2_addFrontmatter_merge "---\ndate: X\n---\nB".data "T".data "D".data).1
     "date: X".data "B".data (by decide),
   (C2_addFrontmatter_merge "plain".data "T".data "D".data).2 (by decide)⟩

/-- C7: `addFrontmatter` never alters the note body: when the frontmatter
pattern matches, the captured body is a suffix of the result; when it does
not, the entire original content is a suffix of the result. -/
theorem C7_addFrontmatter_preserves_body (content title date : List Char) :
    (∀ fm body, fmMatch content = some (fm, body) →
       ∃ pre, addFrontmatter content title date = pre ++ body) ∧
    (fmMatch content = none →
       ∃ pre, addFrontmatter content title date = pre ++ content) :=
  ⟨fun fm _ h =>
    ⟨fmOpen ++ ((if hasKeyLine titleKey fm then [] else keyLine titleKey title) ++
      ((if hasKeyLine dateKey fm then [] else keyLine dateKey date) ++ fm)) ++ fmSep,
     addFrontmatter_eq_some title date h⟩,
   fun h => ⟨newFrontmatter title date, addFrontmatter_eq_none title date h⟩⟩

theorem C7_addFrontmatter_preserves_body_witness :
    (∃ pre, addFrontmatter "---\ndate: X\n---\nB".data "U".data "E".data =
       pre ++ "B".data) ∧
    (∃ pre, addFrontmatter "bare".data "U".data "E".data = pre ++ "bare".data) :=
  ⟨(C7_addFrontmatter_preserves_body "---\ndate: X\n---\nB".data "U".data "E".data).1
     "date: X".data "B".data (by decide),
   (C7_addFrontmatter_preserves_body "bare".data "U".data "E".data).2 (by decide)⟩

/-!
## Settings, vault and note creation (src/main.ts lines 84-165)
-/

/-- The plugin settings (src/main.ts lines 3-6). -/
structure QuickNoteSettings where
  baseFolder : List Char
  templatePath : List Char

/-- Modelled from the spec: `normalizePath` belongs to the host application's
vault abstraction, which the spec declares externally owned and out of scope;
it is modelled as the identity on paths. -/
def normalizePath (p : List Char) : List Char := p

inductive VItem where
  | vfile (content : List Char)
  | vfolder
deriving DecidableEq

/-- `vault.getAbstractFileByPath`: the vault as a path-to-item association. -/
def vaultGet : List (List Char × VItem) → List Char → Option VItem
  | [], _ => none
  | (p, it) :: rest, q => if p = q then some it else vaultGet rest q

/-- `ensureFolderExists` (src/main.ts lines 140-145). -/
def ensureFolderExists (v : List (List Char × VItem)) (p : List Char) :
    List (List Char × VItem) :=
  match vaultGet v p with
  | none => (p, VItem.vfolder) :: v
  | some _ => v

def vaultCreate (v : List (List Char × VItem)) (p c : List Char) :
    List (List Char × VItem) :=
  (p, VItem.vfile c) :: v

/-- The fields of the JavaScript `Date` read by the plugin: `getFullYear()`,
`getMonth()` (zero-based) and `getDate()`. -/
structure JsDate where
  year : Nat
  monthIndex : Nat
  day : Nat

/-- `.toString().padStart(2, '0')`. -/
def padStart2 (s : List Char) : List Char :=
  if s.length < 2 then List.replicate (2 - s.length) '0' ++ s else s

/-- `formatDate` (src/main.ts lines 133-138). -/
def formatDate (dt : JsDate) : List Char :=
  Nat.toDigits 10 dt.year ++ '-' :: padStart2 (Nat.toDigits 10 (dt.monthIndex + 1)) ++
    '-' :: padStart2 (Nat.toDigits 10 dt.day)

/-- `normalizePath(baseFolder/YYYY/MM)` (src/main.ts line 98). -/
def folderPathOf (s : QuickNoteSettings) (now : JsDate) : List Char :=
  normalizePath (s.baseFolder ++ '/' :: Nat.toDigits 10 now.year ++
    '/' :: padStart2 (Nat.toDigits 10 (now.monthIndex + 1)))

/-- `"${dateStr} ${title}.md"` (src/main.ts line 101). -/
def fileNameOf (now : JsDate) (title : List Char) : List Char :=
  formatDate now ++ ' ' :: title ++ ['.', 'm', 'd']

/-- `normalizePath(folderPath/fileName)` (src/main.ts line 102). -/
def notePath (s : QuickNoteSettings) (now : JsDate) (title : List Char) : List Char :=
  normalizePath (folderPathOf s now ++ '/' :: fileNameOf now title)

/-- `getNoteContent` (src/main.ts lines 147-165): read the configured template
when it resolves to a file, else start from the empty string; then add
frontmatter. -/
def getNoteContent (s : QuickNoteSettings) (v : List (List Char × VItem))
    (title date : List Char) : List Char :=
  let content :=
    if s.templatePath ≠ [] then
      match vaultGet v (normalizePath s.templatePath) with
      | some (VItem.vfile c) => c
      | _ => []
    else []
  addFrontmatter content title date

inductive Outcome where
  | openedExisting (path : List Char)
  | created (path : List Char) (content : List Char)
  | createFailed (path : List Char)
deriving DecidableEq

def outcomePath : Outcome → List Char
  | Outcome.openedExisting p => p
  | Outcome.created p _ => p
  | Outcome.createFailed p => p

/-- `createQuickNote` after the title is submitted (src/main.ts lines 89-130).
When the target path holds a file, it is opened and nothing changes; when it
holds a folder, `vault.create` throws and the error is caught after
`ensureFolderExists` already ran; otherwise the note is created. -/
def createQuickNote (s : QuickNoteSettings) (v : List (List Char × VItem))
    (now : JsDate) (title : List Char) : List (List Char × VItem) × Outcome :=
  let dateStr := formatDate now
  let folderPath := folderPathOf s now
  let filePath := notePath s now title
  match vaultGet v filePath with
  | some (VItem.vfile _) => (v, Outcome.openedExisting filePath)
  | some VItem.vfolder =>
      (ensureFolderExists v folderPath, Outcome.createFailed filePath)
  | none =>
      let v1 := ensureFolderExists v folderPath
      let content := getNoteContent s v1 title dateStr
      (vaultCreate v1 filePath content, Outcome.created filePath content)

/-!
## Autocomplete (src/main.ts lines 218-228)
-/

/-- `toLowerCase()`, modelled characterwise (the simple ASCII case mapping;
titles and queries handled by the plugin are compared after it). -/
def jsToLower (s : List Char) : List Char := s.map Char.toLower

/-- `String.prototype.includes`: contiguous substring test. -/
def containsSub : List Char → List Char → Bool
  | [], needle => needle.isEmpty
  | c :: t, needle => needle.isPrefixOf (c :: t) || containsSub t needle

/-- `String.prototype.trim`. -/
def trimJs (s : List Char) : List Char :=
  ((s.dropWhile isJsWhitespace).reverse.dropWhile isJsWhitespace).reverse

/-- `TitleSuggest.getSuggestions` (src/main.ts lines 218-228). -/
def getSuggestions (query : List Char) (pastTitles : List (List Char)) :
    List (List Char) :=
  if query.isEmpty || ((trimJs query).length == 0) then []
  else pastTitles.filter (fun t => containsSub (jsToLower t) (jsToLower query))

example : formatDate ⟨2024, 0, 5⟩ = "2024-01-05".data := by decide
example : notePath ⟨"Notes".data, []⟩ ⟨2024, 0, 5⟩ "Test".data =
    "Notes/2024/01/2024-01-05 Test.md".data := by decide
example : getSuggestions "  ".data ["a b".data] = [] := by decide
example : getSuggestions "No".data ["A note".data, "other".data] = ["A note".data] := by decide

/-- C3: the note path built by `createQuickNote` is
`<baseFolder>/<YYYY>/<MM>/<YYYY-MM-DD> <title>.md` with the year, zero-padded
month and zero-padded day of `formatDate`, and a created note lands at that
path in the vault. -/
theorem C3_createQuickNote_path (s : QuickNoteSettings) (v : List (List Char × VItem))
    (now : JsDate) (title : List Char) :
    (formatDate now = Nat.toDigits 10 now.year ++
       '-' :: padStart2 (Nat.toDigits 10 (now.monthIndex + 1)) ++
       '-' :: padStart2 (Nat.toDigits 10 now.day)) ∧
    (notePath s now title =
       s.baseFolder ++ '/' :: Nat.toDigits 10 now.year ++
       '/' :: padStart2 (Nat.toDigits 10 (now.monthIndex + 1)) ++
       '/' :: (formatDate now ++ ' ' :: title ++ ['.', 'm', 'd'])) ∧
    (∀ p c, (createQuickNote s v now title).2 = Outcome.created p c →
       p = notePath s now title ∧
       vaultGet (createQuickNote s v now title).1 p = some (VItem.vfile c)) := by
  refine ⟨rfl, ?_, ?_⟩
  · simp [notePath, folderPathOf, fileNameOf, normalizePath, List.append_assoc]
  · intro p c h
    simp only [createQuickNote] at h ⊢
    cases hv : vaultGet v (notePath s now title) with
    | some it =>
      cases it with
      | vfile cc =>
        rw [hv] at h
        simp at h
      | vfolder =>
        rw [hv] at h
        simp at h
    | none =>
      rw [hv] at h
      have h' : Outcome.created (notePath s now title)
          (getNoteContent s (ensureFolderExists v (folderPathOf s now)) title
            (formatDate now)) = Outcome.created p c := h
      simp only [Outcome.created.injEq] at h'
      obtain ⟨hp, hc⟩ := h'
      refine ⟨hp.symm, ?_⟩
      show vaultGet (vaultCreate (ensureFolderExists v (folderPathOf s now))
          (notePath s now title)
          (getNoteContent s (ensureFolderExists v (folderPathOf s now)) title
            (formatDate now))) p = some (VItem.vfile c)
      rw [← hp, ← hc]
      simp [vaultCreate, vaultGet]

def qsW : QuickNoteSettings := ⟨"Notes".data, []⟩

def dW : JsDate := ⟨2024, 0, 5⟩

def pW : List Char := "Notes/2024/01/2024-01-05 Test.md".data

theorem C3_createQuickNote_path_witness :
    pW = notePath qsW dW "Test".data ∧
    vaultGet (createQuickNote qsW [] dW "Test".data).1 pW =
      some (VItem.vfile "---\ntitle: Test\ndate: 2024-01-05\n---\n\n".data) :=
  (C3_createQuickNote_path qsW [] dW "Test".data).2.2 pW
    "---\ntitle: Test\ndate: 2024-01-05\n---\n\n".data (by decide)

/-- C9: when a file already sits at the target path, `createQuickNote` opens
it and returns, leaving the vault unchanged. -/
theorem C9_createQuickNote_existing_file (s : QuickNoteSettings)
    (v : List (List Char × VItem)) (now : JsDate) (title c : List Char)
    (h : vaultGet v (notePath s now title) = some (VItem.vfile c)) :
    createQuickNote s v now title =
      (v, Outcome.openedExisting (notePath s now title)) := by
  simp only [createQuickNote]
  rw [h]

theorem C9_createQuickNote_existing_file_witness :
    createQuickNote qsW [(pW, VItem.vfile [])] dW "Test".data =
      ([(pW, VItem.vfile [])], Outcome.openedExisting (notePath qsW dW "Test".data)) :=
  C9_createQuickNote_existing_file qsW [(pW, VItem.vfile [])] dW "Test".data []
    (by decide)

/-- C5: with a configured template that resolves to a file, the new note's
content is the template content with frontmatter added; with no template or a
missing one, it is exactly the fresh frontmatter block; in every case the
content carries `title:` and `date:` frontmatter lines. -/
theorem C5_getNoteContent_template (s : QuickNoteSettings)
    (v : List (List Char × VItem)) (title date : List Char) :
    (∀ c, s.templatePath ≠ [] →
       vaultGet v (normalizePath s.templatePath) = some (VItem.vfile c) →
       getNoteContent s v title date = addFrontmatter c title date) ∧
    ((s.templatePath = [] ∨
        ∀ c, vaultGet v (normalizePath s.templatePath) ≠ some (VItem.vfile c)) →
       getNoteContent s v title date = addFrontmatter [] title date ∧
       addFrontmatter [] title date = newFrontmatter title date) ∧
    (∃ fm body, getNoteContent s v title date = fmOpen ++ fm ++ fmSep ++ body ∧
       hasKeyLine titleKey fm = true ∧ hasKeyLine dateKey fm = true) := by
  refine ⟨?_, ?_, ?_⟩
  · intro c hne hv
    simp only [getNoteContent]
    rw [if_pos hne, hv]
  · intro h
    have h0 : getNoteContent s v title date = addFrontmatter [] title date := by
      simp only [getNoteContent]
      rcases h with h | h
      · rw [if_neg (by simp [h])]
      · by_cases hne : s.templatePath ≠ []
        · rw [if_pos hne]
          cases hv : vaultGet v (normalizePath s.templatePath) with
          | none => rfl
          | some it =>
            cases it with
            | vfile c => exact absurd hv (h c)
            | vfolder => rfl
        · rw [if_neg hne]
    refine ⟨h0, ?_⟩
    rw [@addFrontmatter_eq_none [] title date rfl]
    simp
  · simp only [getNoteContent]
    exact addFrontmatter_shape _ title date

def qsT : QuickNoteSettings := ⟨"Notes".data, "T.md".data⟩

def vT : List (List Char × VItem) := [("T.md".data, VItem.vfile "hello".data)]

theorem C5_getNoteContent_template_witness :
    (getNoteContent qsT vT "A".data "B".data =
       addFrontmatter "hello".data "A".data "B".data) ∧
    (getNoteContent qsW [] "A".data "B".data = addFrontmatter [] "A".data "B".data ∧
     addFrontmatter [] "A".data "B".data = newFrontmatter "A".data "B".data) :=
  ⟨(C5_getNoteContent_template qsT vT "A".data "B".data).1 "hello".data
     (by decide) (by decide),
   (C5_getNoteContent_template qsW [] "A".data "B".data).2.1 (Or.inl rfl)⟩

theorem trimJs_eq_nil_iff (q : List Char) :
    trimJs q = [] ↔ q.all isJsWhitespace = true := by
  induction q with
  | nil => simp [trimJs]
  | cons c rest ih =>
    by_cases hc : isJsWhitespace c = true
    · have hstep : trimJs (c :: rest) = trimJs rest := by
        simp [trimJs, List.dropWhile, hc]
      rw [hstep, ih]
      simp [List.all_cons, hc]
    · have hc' : isJsWhitespace c = false := by
        cases hh : isJsWhitespace c with
        | false => rfl
        | true => exact absurd hh hc
      have h1 : (c :: rest).dropWhile isJsWhitespace = c :: rest := by
        simp [List.dropWhile, hc']
      constructor
      · intro h
        unfold trimJs at h
        rw [h1] at h
        have h2 : (c :: rest).reverse.dropWhile isJsWhitespace = [] := by
          have := congrArg List.reverse h
          simpa using this
        rw [List.dropWhile_eq_nil_iff] at h2
        have := h2 c (by simp)
        rw [hc'] at this
        simp at this
      · intro h
        simp [List.all_cons, hc'] at h

theorem containsSub_iff (hay needle : List Char) :
    containsSub hay needle = true ↔ ∃ l r, hay = l ++ needle ++ r := by
  induction hay with
  | nil =>
    simp only [containsSub]
    constructor
    · intro h
      have : needle = [] := by
        cases needle with
        | nil => rfl
        | cons a l => simp [List.isEmpty] at h
      exact ⟨[], [], by simp [this]⟩
    · rintro ⟨l, r, hl⟩
      have : needle = [] := by
        cases needle with
        | nil => rfl
        | cons a nl =>
          exact absurd hl.symm (by simp)
      simp [this, List.isEmpty]
  | cons c t ih =>
    simp only [containsSub, Bool.or_eq_true, ih]
    constructor
    · rintro (hpre | ⟨l, r, hl⟩)
      · obtain ⟨r, hr⟩ := isPrefixOf_exists needle (c :: t) hpre
        exact ⟨[], r, by simpa using hr⟩
      · exact ⟨c :: l, r, by simp [hl]⟩
    · rintro ⟨l, r, hl⟩
      cases l with
      | nil =>
        left
        have hl' : c :: t = needle ++ r := by simpa using hl
        rw [hl']
        exact isPrefixOf_self_append needle r
      | cons x l' =>
        right
        have hl' : c :: t = x :: (l' ++ needle ++ r) := by simpa [List.append_assoc] using hl
        injection hl' with _ h2
        exact ⟨l', r, h2⟩

/-- C8: `getSuggestions` returns the empty list when the query is empty or
whitespace-only, and otherwise returns exactly the past titles containing the
query as a case-insensitive substring (`containsSub` being the contiguous
substring test). -/
theorem C8_getSuggestions_substring_filter (q : List Char) (ts : List (List Char)) :
    (q.all isJsWhitespace = true → getSuggestions q ts = []) ∧
    (q.all isJsWhitespace = false →
       getSuggestions q ts = ts.filter (fun t => containsSub (jsToLower t) (jsToLower q))) ∧
    (∀ t, containsSub (jsToLower t) (jsToLower q) = true ↔
       ∃ l r, jsToLower t = l ++ jsToLower q ++ r) := by
  refine ⟨?_, ?_, fun t => containsSub_iff (jsToLower t) (jsToLower q)⟩
  · intro h
    unfold getSuggestions
    rw [if_pos ?_]
    rw [(trimJs_eq_nil_iff q).mpr h]
    simp
  · intro h
    unfold getSuggestions
    rw [if_neg ?_]
    have h1 : q.isEmpty = false := by
      cases q with
      | nil => simp at h
      | cons a l => rfl
    have h2 : ((trimJs q).length == 0) = false := by
      cases ht : trimJs q with
      | nil =>
        rw [(trimJs_eq_nil_iff q).mp ht] at h
        simp at h
      | cons a l => rfl
    rw [h1, h2]
    simp

theorem C8_getSuggestions_substring_filter_witness :
    (getSuggestions " \t ".data ["a b".data] = []) ∧
    (getSuggestions "No".data ["A note".data, "other".data] =
       ["A note".data, "other".data].filter
         (fun t => containsSub (jsToLower t) (jsToLower "No".data))) :=
  ⟨(C8_getSuggestions_substring_filter " \t ".data ["a b".data]).1 (by decide),
   (C8_getSuggestions_substring_filter "No".data ["A note".data, "other".data]).2.1
     (by decide)⟩
